import Mathlib

/-!
Verification development for the QOA (Quite OK Audio) decoder of this
repository (qoa.h / qoa.cpp).

The decoder is shallowly embedded over byte lists:

* a byte stream (`std::istream`) is a `List (Fin 256)`; a read of `n` bytes
  succeeds exactly when at least `n` bytes remain (`readBytes`);
* every parsing function returns `Option (result × ByteStream)`, the stream
  component being the unread remainder, mirroring `std::optional` results
  plus the mutated stream position of the C++ code;
* machine integers are `Nat` / `Int` with explicit wrapping (`wrap16` for
  `int16_t` casts) and explicit byte reassembly (`netPack16/32/64` mirrors
  `util::net_pack`, which byte-reverses the little-endian in-memory value);
  on `Int`, `/` is floor division (Lean's `Int.ediv` with positive
  divisors), which is exactly the arithmetic (sign-extending) right shift
  the code relies on;
* the single-precision float computation of the frame count
  (`std::round(sample_count / 256.f / 20.f + 0.5f)`, qoa.cpp line 128) is
  modelled exactly by `frameCount`, built on a binary32
  round-to-nearest-even model (`rn32`) over explicit rationals (`Q`);
* the dequantizer's float products `scale_factor * kDequantTable[res]`
  (qoa.cpp lines 181-185) are exactly representable in binary32/binary64
  (all are quarter-integers of magnitude at most 14336 < 2^24), so they are
  embedded as exact integer arithmetic on 4x-scaled table entries.
-/

/-! ## Bytes, streams and reads -/

/-- A byte of the input. -/
abbrev Byte := Fin 256

/-- The byte stream (`std::istream` contents not yet consumed). -/
abbrev ByteStream := List Byte

/-- `is.read(buf, n)`: succeeds iff `n` bytes remain, yielding them and the
rest of the stream. -/
def readBytes (n : Nat) (s : ByteStream) : Option (List Byte × ByteStream) :=
  if n ≤ s.length then some (s.take n, s.drop n) else none

/-- Value of a byte list as stored in a zero-initialised little-endian
machine word (byte 0 at the lowest address = least significant). -/
def leBytes : List Byte → Nat
  | [] => 0
  | b :: bs => b.val + 256 * leBytes bs

/-- `util::net_pack` on `std::uint16_t`: byte-reversal of a 16-bit value. -/
def netPack16 (x : Nat) : Nat :=
  (x / 2 ^ 8 % 256) + (x % 256) * 2 ^ 8

/-- `util::net_pack` on `std::uint32_t`: byte-reversal of a 32-bit value. -/
def netPack32 (x : Nat) : Nat :=
  (x / 2 ^ 24 % 256) + (x / 2 ^ 16 % 256) * 2 ^ 8 +
    (x / 2 ^ 8 % 256) * 2 ^ 16 + (x % 256) * 2 ^ 24

/-- `util::net_pack` on `std::uint64_t`: byte-reversal of a 64-bit value. -/
def netPack64 (x : Nat) : Nat :=
  (x / 2 ^ 56 % 256) + (x / 2 ^ 48 % 256) * 2 ^ 8 +
    (x / 2 ^ 40 % 256) * 2 ^ 16 + (x / 2 ^ 32 % 256) * 2 ^ 24 +
    (x / 2 ^ 24 % 256) * 2 ^ 32 + (x / 2 ^ 16 % 256) * 2 ^ 40 +
    (x / 2 ^ 8 % 256) * 2 ^ 48 + (x % 256) * 2 ^ 56

/-- Reinterpret an unsigned 16-bit value as `std::int16_t` (two's
complement). -/
def toSigned16 (v : Nat) : Int :=
  if v < 32768 then (v : Int) else (v : Int) - 65536

/-- The big-endian `int16_t` stored at element index `i` of a raw byte
buffer (two bytes per element, as read by `LmsState::parse` and then
byte-swapped per element by `util::net_pack`). -/
def s16at (bs : List Byte) (i : Nat) : Int :=
  toSigned16 ((bs.getD (2 * i) 0).val * 256 + (bs.getD (2 * i + 1) 0).val)

/-! ## Exact rationals for the binary32 model

Mathlib's `Rat` does not reduce well inside `decide`, so the float model
uses raw numerator/denominator pairs (denominators kept positive by
construction). -/

/-- An exact rational: numerator and (positive) denominator, unreduced. -/
structure Q where
  n : Int
  d : Int
deriving DecidableEq

def qOfInt (i : Int) : Q := ⟨i, 1⟩

def qAdd (a b : Q) : Q := ⟨a.n * b.d + b.n * a.d, a.d * b.d⟩

def qMul (a b : Q) : Q := ⟨a.n * b.n, a.d * b.d⟩

/-- Division, keeping the denominator positive. -/
def qDiv (a b : Q) : Q :=
  let n := a.n * b.d
  let d := a.d * b.n
  if d < 0 then ⟨-n, -d⟩ else ⟨n, d⟩

def qNeg (a : Q) : Q := ⟨-a.n, a.d⟩

/-- Comparison (valid because denominators are positive). -/
def qLt (a b : Q) : Bool := a.n * b.d < b.n * a.d

def qEqv (a b : Q) : Bool := a.n * b.d == b.n * a.d

/-- Floor of an exact rational (`Int./` floors for positive divisors). -/
def qFloor (a : Q) : Int := a.n / a.d

def qHalf : Q := ⟨1, 2⟩

/-- `2^k` for a signed exponent. -/
def qPow2 (k : Int) : Q :=
  if 0 ≤ k then ⟨2 ^ k.toNat, 1⟩ else ⟨1, 2 ^ (-k).toNat⟩

/-- Fuel-based `⌊log2 n⌋` (structural recursion so that the kernel can
evaluate it; 128 halvings cover every value this model meets). -/
def ilog2 : Nat → Nat → Nat
  | 0, _ => 0
  | fuel + 1, m => if m < 2 then 0 else ilog2 fuel (m / 2) + 1

def natLog2 (m : Nat) : Nat := ilog2 128 m

/-- `⌊log2 q⌋` for a positive rational. -/
def qExp (a : Q) : Int :=
  let k0 : Int := (natLog2 a.n.toNat : Int) - (natLog2 a.d.toNat : Int)
  if qLt a (qPow2 k0) then k0 - 1
  else if qLt a (qPow2 (k0 + 1)) then k0 else k0 + 1

/-- Round a rational to the nearest integer, ties to even. -/
def qRoundTiesEven (a : Q) : Int :=
  let f := qFloor a
  let frac := qAdd a (qOfInt (-f))
  if qLt frac qHalf then f
  else if qLt qHalf frac then f + 1
  else if f % 2 = 0 then f else f + 1

/-- Round a nonnegative rational to the nearest IEEE binary32 value
(round-to-nearest, ties-to-even; overflow and subnormals are outside the
range this model is used on). -/
def rn32pos (a : Q) : Q :=
  let k := qExp a
  let m := qRoundTiesEven (qMul a (qPow2 (23 - k)))
  qMul (qOfInt m) (qPow2 (k - 23))

/-- Round an exact rational to the nearest IEEE binary32 value. -/
def rn32 (a : Q) : Q :=
  if a.n = 0 then qOfInt 0
  else if a.n < 0 then qNeg (rn32pos (qNeg a)) else rn32pos a

/-- `std::round`: round to nearest, halves away from zero. -/
def qRoundHalfAway (a : Q) : Int :=
  if qLt a (qOfInt 0) then -(qFloor (qAdd (qNeg a) qHalf))
  else qFloor (qAdd a qHalf)

/-- qoa.cpp line 128:
`std::uint32_t frame_count = std::round(sample_count / 256.f / 20.f + 0.5f);`
Every step is a binary32 operation: convert the `uint32_t` to `float`,
divide by `256.f`, divide by `20.f`, add `0.5f`, `std::round`, truncate to
`uint32_t` (all values met here are small and nonnegative). -/
def frameCount (sampleCount : Nat) : Nat :=
  let x := rn32 (qOfInt sampleCount)
  let y := rn32 (qDiv x (qOfInt 256))
  let z := rn32 (qDiv y (qOfInt 20))
  let w := rn32 (qAdd z qHalf)
  (qRoundHalfAway w).toNat

/-- The frame-count formula of the specification, read in exact (real)
arithmetic: `round(total_sample_count / 256 / 20 + 0.5)`, halves away from
zero. -/
def exactFrameCount (sampleCount : Nat) : Nat :=
  (qRoundHalfAway
    (qAdd (qDiv (qDiv (qOfInt sampleCount) (qOfInt 256)) (qOfInt 20)) qHalf)).toNat

/-! ## Dequantization -/

/-- `kDequantTable` (qoa.cpp lines 104-106) scaled by 4:
the float table is `{.75f, -.75f, 2.5f, -2.5f, 4.5f, -4.5f, 7.f, -7.f}`,
i.e. these quarter-integers divided by 4 (each exactly representable). -/
def kDequantQuarters : List Int := [3, -3, 10, -10, 18, -18, 28, -28]

/-- The dequantized scale factor
`static_cast<int16_t>(std::round(std::pow(sf_quant + 1, 2.75f)))`
(qoa.cpp lines 172-174) for each 4-bit index. Each entry is the exact
nearest integer to `(index+1)^2.75` (none of those powers is a half-integer
tie, and all are at least 1e-3 away from one, so any faithfully-rounded
`pow` yields these values); `sfDequantPowerLaw` proves the
nearest-integer property. -/
def sfDequant (i : Nat) : Int :=
  [1, 7, 21, 45, 84, 138, 211, 304, 421, 562, 731, 928,
   1157, 1419, 1715, 2048].getD i 0

/-- The residual contribution (qoa.cpp lines 181-185):
`r_d = double(scale_factor * kDequantTable.at(residual))`, then
`r = r_d < 0 ? ceil(r_d - 0.5) : floor(r_d + 0.5)`.
With `q := 4 * kDequantTable.at(residual)` (an integer) the product is
exactly `sf*q/4`, so `floor(sf*q/4 + 1/2) = (sf*q + 2) / 4` and
`ceil(sf*q/4 - 1/2) = -((2 - sf*q) / 4)` with `/` the floor division. -/
def dequantContribution (sf : Int) (res : Nat) : Int :=
  let p := sf * kDequantQuarters.getD res 0
  if p < 0 then -((2 - p) / 4) else (p + 2) / 4

/-! ## LMS predictor state -/

/-- `LmsState`: 4-entry history and 4-entry weights, `int16_t` each
(qoa.cpp lines 76-101). Index `j` of the C++ arrays is field `hj` / `wj`. -/
structure Lms where
  h0 : Int
  h1 : Int
  h2 : Int
  h3 : Int
  w0 : Int
  w1 : Int
  w2 : Int
  w3 : Int
deriving DecidableEq

instance : Inhabited Lms := ⟨⟨0, 0, 0, 0, 0, 0, 0, 0⟩⟩

/-- `static_cast<std::int16_t>` of an `int` value (two's-complement
truncation to 16 bits). -/
def wrap16 (x : Int) : Int := (x + 32768) % 65536 - 32768

/-- Arithmetic (sign-extending) right shift: `Int./` is floor division. -/
def asr (x : Int) (k : Nat) : Int := x / 2 ^ k

/-- `std::clamp`. -/
def clampI (v lo hi : Int) : Int := max lo (min v hi)

/-- One step of the LMS predictor/updater (qoa.cpp lines 187-212):
predict `p` (an `int16_t`, hence the truncating cast of the shifted sum of
`int` products), emit `clamp(r + p, -32768, 32767)` as the output sample,
update the four weights from the *pre-shift* history signs with
`int16_t delta = r >> 4`, shift the history, and store the output sample in
`history[3]`. Returns the new state and the emitted sample. -/
def lmsStep (st : Lms) (r : Int) : Lms × Int :=
  let p := wrap16 (asr (st.h0 * st.w0 + st.h1 * st.w1 +
    st.h2 * st.w2 + st.h3 * st.w3) 13)
  let sample := wrap16 (clampI (r + p) (-32768) 32767)
  let delta := wrap16 (asr r 4)
  let nw0 := wrap16 (st.w0 + (if st.h0 < 0 then -delta else delta))
  let nw1 := wrap16 (st.w1 + (if st.h1 < 0 then -delta else delta))
  let nw2 := wrap16 (st.w2 + (if st.h2 < 0 then -delta else delta))
  let nw3 := wrap16 (st.w3 + (if st.h3 < 0 then -delta else delta))
  (⟨st.h1, st.h2, st.h3, sample, nw0, nw1, nw2, nw3⟩, sample)

/-! ## Slice unpacking -/

/-- `sf_quant = static_cast<uint8_t>(slice >> (64 - 4))`
(qoa.cpp lines 169-170). -/
def sliceSfQuant (slice : Nat) : Nat := (slice >>> 60) % 256

/-- The residual-extraction loop of qoa.cpp lines 176-180: starting from
`offset = 4`, each of the 20 iterations does `offset += 3` and extracts
`(slice >> (64 - offset)) & 0b111`. -/
def residualsFrom (slice : Nat) : Nat → Nat → List Nat
  | _, 0 => []
  | offset, k + 1 =>
    ((slice >>> (64 - (offset + 3))) % 8) :: residualsFrom slice (offset + 3) k

/-- The twenty 3-bit residual indices of a slice, in extraction
(= chronological playback) order. -/
def sliceResiduals (slice : Nat) : List Nat := residualsFrom slice 4 20

/-! ## Per-channel output store -/

/-- `std::array<std::vector<std::int16_t>, 2> output` (qoa.cpp line 132)
plus an out-of-bounds marker: the C++ code indexes this fixed 2-element
array with the unvalidated channel number, so a store at channel `>= 2`
is an out-of-bounds write (undefined behaviour); the model records that
event in `oob` and drops the sample. -/
structure Output where
  c0 : List Int
  c1 : List Int
  oob : Bool
deriving DecidableEq

/-- `output[ch].push_back(sample)`. -/
def pushSample (ch : Nat) (x : Int) (out : Output) : Output :=
  if ch = 0 then { out with c0 := out.c0 ++ [x] }
  else if ch = 1 then { out with c1 := out.c1 ++ [x] }
  else { out with oob := true }

/-- The per-sample body of the slice loop, iterated over the residual list:
dequantize, run the LMS step, push the sample for channel `ch`
(qoa.cpp lines 176-213). -/
def processResiduals : List Nat → Int → Nat → Lms → Output → Lms × Output
  | [], _, _, st, out => (st, out)
  | res :: rest, sf, ch, st, out =>
    let r := dequantContribution sf res
    let stepped := lmsStep st r
    processResiduals rest sf ch stepped.1 (pushSample ch stepped.2 out)

/-! ## Frame decoding -/

/-- `FrameHeader` (qoa.cpp lines 38-43). -/
structure FrameHeader where
  channel_count : Nat
  sample_rate : Nat
  sample_count : Nat
  size : Nat
deriving DecidableEq

instance : Inhabited FrameHeader := ⟨⟨0, 0, 0, 0⟩⟩

/-- `FrameHeader::parse` (qoa.cpp lines 44-73): reads 1 + 3 + 2 + 2 bytes.
The three sample-rate bytes are stored into a zero-initialised `uint32_t`
(little-endian in memory) and the whole 4-byte value is then byte-swapped
by `util::net_pack`; on big-endian hosts the raw store already yields the
same `b0*2^24 + b1*2^16 + b2*2^8`, so the modelled value is
platform-independent. -/
def parseFrameHeader (s : ByteStream) : Option (FrameHeader × ByteStream) :=
  match readBytes 1 s with
  | none => none
  | some (ccb, s1) =>
    match readBytes 3 s1 with
    | none => none
    | some (rb, s2) =>
      match readBytes 2 s2 with
      | none => none
      | some (scb, s3) =>
        match readBytes 2 s3 with
        | none => none
        | some (szb, s4) =>
          some ({ channel_count := leBytes ccb,
                  sample_rate := netPack32 (leBytes rb),
                  sample_count := netPack16 (leBytes scb),
                  size := netPack16 (leBytes szb) }, s4)

/-- `LmsState::parse` (qoa.cpp lines 80-100): reads 8 history bytes and 8
weight bytes (the C++ length argument `sizeof(s.history.size() * 2)` is
`sizeof(std::size_t)` = 8, which happens to equal the intended
`4 * sizeof(int16_t)`), then byte-swaps each 16-bit element. -/
def parseLms (s : ByteStream) : Option (Lms × ByteStream) :=
  match readBytes 8 s with
  | none => none
  | some (hb, s1) =>
    match readBytes 8 s1 with
    | none => none
    | some (wb, s2) =>
      some ({ h0 := s16at hb 0, h1 := s16at hb 1,
              h2 := s16at hb 2, h3 := s16at hb 3,
              w0 := s16at wb 0, w1 := s16at wb 1,
              w2 := s16at wb 2, w3 := s16at wb 3 }, s2)

/-- The per-frame loop reading one `LmsState` per channel
(qoa.cpp lines 146-153). -/
def parseLmsList : Nat → ByteStream → Option (List Lms × ByteStream)
  | 0, s => some ([], s)
  | n + 1, s =>
    match parseLms s with
    | none => none
    | some (l, s1) =>
      match parseLmsList n s1 with
      | none => none
      | some (ls, s2) => some (l :: ls, s2)

/-- The inner channel loop of one slice group (qoa.cpp lines 157-214):
for each channel in order, read one 8-byte slice, byte-swap it, unpack the
scale factor and the 20 residuals, and decode them against that channel's
LMS state. `remaining` counts down from the channel count while `ch` is
the current channel index. -/
def decodeChans : Nat → Nat → List Lms → Output → ByteStream →
    Option (List Lms × Output × ByteStream)
  | 0, _, lms, out, s => some (lms, out, s)
  | remaining + 1, ch, lms, out, s =>
    match readBytes 8 s with
    | none => none
    | some (sb, s1) =>
      let slice := netPack64 (leBytes sb)
      let sf := sfDequant (sliceSfQuant slice)
      let done :=
        processResiduals (sliceResiduals slice) sf ch (lms.getD ch default) out
      decodeChans remaining (ch + 1) (lms.set ch done.1) done.2 s1

/-- The slice-group loop (qoa.cpp line 156): one group per
`sample_count / 20` (integer division). -/
def decodeGroups : Nat → Nat → List Lms → Output → ByteStream →
    Option (List Lms × Output × ByteStream)
  | 0, _, lms, out, s => some (lms, out, s)
  | g + 1, cc, lms, out, s =>
    match decodeChans cc 0 lms out s with
    | none => none
    | some (lms2, out2, s2) => decodeGroups g cc lms2 out2 s2

/-- The frame loop of `Qoa::parse` (qoa.cpp lines 134-216): parse the
header, fail if an already-established channel count differs from the
header's, parse one LMS state per channel, then decode
`sample_count / 20` slice groups. Returns the last header parsed, the
established channel count, the output store and the remaining stream. -/
def decodeFrames : Nat → Option Nat → FrameHeader → Output → ByteStream →
    Option (FrameHeader × Option Nat × Output × ByteStream)
  | 0, cc, last, out, s => some (last, cc, out, s)
  | k + 1, cc, _, out, s =>
    match parseFrameHeader s with
    | none => none
    | some (hdr, s1) =>
      if cc.getD hdr.channel_count ≠ hdr.channel_count then none
      else
        match parseLmsList hdr.channel_count s1 with
        | none => none
        | some (lms, s2) =>
          match decodeGroups (hdr.sample_count / 20) hdr.channel_count lms out s2 with
          | none => none
          | some (_, out2, s3) =>
            decodeFrames k (some hdr.channel_count) hdr out2 s3

/-! ## Output assembly and top-level parse -/

/-- The interleaving loop (qoa.cpp lines 217-223): for every index of
channel 0's sequence, push `output[0][i]` and, only when the channel count
equals 2, also `output[1][i]`. -/
def interleave (cc : Nat) (out : Output) : List Int :=
  (List.range out.c0.length).flatMap fun i =>
    out.c0.getD i 0 :: (if cc = 2 then [out.c1.getD i 0] else [])

/-- The decoded result (class `Qoa`, qoa.h). -/
structure Qoa where
  audio_frames : List Int
  sample_rate : Nat
  nbr_channels : Nat
deriving DecidableEq

/-- `Qoa::parse` (qoa.cpp lines 111-229): check the 4-byte magic
`"qoaf"`, read the big-endian 32-bit total sample count, derive the frame
count with the single-precision formula, run the frame loop, and
interleave. On success the unread remainder of the stream is returned with
the result (the C++ code leaves those bytes unconsumed in the istream). -/
def qoaParse (s : ByteStream) : Option (Qoa × ByteStream) :=
  match readBytes 4 s with
  | none => none
  | some (magic, s1) =>
    if magic ≠ [113, 111, 97, 102] then none
    else
      match readBytes 4 s1 with
      | none => none
      | some (scb, s2) =>
        let sampleCount := netPack32 (leBytes scb)
        match decodeFrames (frameCount sampleCount) none default ⟨[], [], false⟩ s2 with
        | none => none
        | some (last, cc, out, s3) =>
          some ({ audio_frames := interleave (cc.getD 0) out,
                  sample_rate := last.sample_rate,
                  nbr_channels := last.channel_count }, s3)

/-! ## Helper lemmas -/

theorem wrap16_clampI (v : Int) :
    wrap16 (clampI v (-32768) 32767) = clampI v (-32768) 32767 := by
  unfold clampI wrap16
  omega

/-! ## Claims -/

/-- C1 (counterexample): as literally stated, the claim computes the
predicted sample as the plain shifted sum
`(history[0]*weights[0] + ... + history[3]*weights[3]) >> 13`; but the
C++ code stores that sum into an `int16_t p`, truncating it.  At the
channel state `history = [32767,0,0,0]`, `weights = [32767,0,0,0]` and
residual contribution `r = 0` the shifted sum is `131064`, so the claim's
output sample would be `clamp(131064 + 0) = 32767`, while the code's
`int16_t` truncation gives `p = -8` and emits the sample `-8`. -/
theorem lmsStepTruncationCounterexample :
    (lmsStep ⟨32767, 0, 0, 0, 32767, 0, 0, 0⟩ 0).2 = -8 ∧
    asr ((32767 : Int) * 32767 + 0 * 0 + 0 * 0 + 0 * 0) 13 = 131064 ∧
    clampI (asr ((32767 : Int) * 32767 + 0 * 0 + 0 * 0 + 0 * 0) 13 + 0)
      (-32768) 32767 = 32767 ∧
    (lmsStep ⟨32767, 0, 0, 0, 32767, 0, 0, 0⟩ 0).2 ≠
      clampI (asr ((32767 : Int) * 32767 + 0 * 0 + 0 * 0 + 0 * 0) 13 + 0)
        (-32768) 32767 := by
  decide

/-- C1 (amended): one step of the LMS predictor/updater computes
`p = (history[0]*weights[0] + history[1]*weights[1] +
history[2]*weights[2] + history[3]*weights[3]) >> 13` with signed integer
arithmetic, an arithmetic right shift, and a final truncation to signed
16 bits (the `int16_t p` of the code); emits the output sample
`clamp(p + r, -32768, 32767)`; updates each `weights[j]` by adding
`-(r >> 4)` if `history[j] < 0` and `+(r >> 4)` otherwise (`r >> 4`
truncated to `int16_t`, the addition wrapping at 16 bits), using the
pre-shift history values; then shifts the history left by one and stores
the just-produced output sample (not the residual) into `history[3]`. -/
theorem lmsStepCharacterization (st : Lms) (r : Int) :
    lmsStep st r =
      (⟨st.h1, st.h2, st.h3,
        clampI (wrap16 (asr (st.h0 * st.w0 + st.h1 * st.w1 +
          st.h2 * st.w2 + st.h3 * st.w3) 13) + r) (-32768) 32767,
        wrap16 (st.w0 + (if st.h0 < 0 then -(wrap16 (asr r 4)) else wrap16 (asr r 4))),
        wrap16 (st.w1 + (if st.h1 < 0 then -(wrap16 (asr r 4)) else wrap16 (asr r 4))),
        wrap16 (st.w2 + (if st.h2 < 0 then -(wrap16 (asr r 4)) else wrap16 (asr r 4))),
        wrap16 (st.w3 + (if st.h3 < 0 then -(wrap16 (asr r 4)) else wrap16 (asr r 4)))⟩,
       clampI (wrap16 (asr (st.h0 * st.w0 + st.h1 * st.w1 +
         st.h2 * st.w2 + st.h3 * st.w3) 13) + r) (-32768) 32767) := by
  unfold lmsStep
  dsimp only
  rw [wrap16_clampI, Int.add_comm r]

/-- C4: for every scale-factor index `i` in `0..15`, the dequantized scale
factor `sfDequant i` is the integer nearest to `(i+1)^2.75` under rounding
half away from zero.  Since `(i+1)^2.75 = ((i+1)^11)^(1/4)`, the statement
`|sfDequant i - (i+1)^2.75| < 1/2` is equivalent to the integer
inequalities `(2*sfDequant i - 1)^4 < 16*(i+1)^11 < (2*sfDequant i + 1)^4`
proved here; the strictness also shows no half-integer tie occurs, so the
value is the exact rounding of the power-law formula (any tie-breaking
rule included).  In particular index 0 yields exactly 1 and index 15
yields exactly 2048. -/
theorem sfDequantPowerLaw :
    (∀ i : Fin 16,
      (2 * sfDequant i.val - 1) ^ 4 < 16 * ((i.val : Int) + 1) ^ 11 ∧
      16 * ((i.val : Int) + 1) ^ 11 < (2 * sfDequant i.val + 1) ^ 4) ∧
    sfDequant 0 = 1 ∧ sfDequant 15 = 2048 := by
  decide

/-- C3: for every (dequantized) scale factor `s = sfDequant i` and residual
index `j` in `0..7`, the residual contribution `dequantContribution s j`
is `s * table[j]` (with `table = {0.75, -0.75, 2.5, -2.5, 4.5, -4.5, 7.0,
-7.0}`, i.e. `kDequantQuarters[j] / 4`) rounded to the nearest integer
with ties away from zero: writing `q = kDequantQuarters[j]`, the exact
product is `s*q/4` and the theorem states `|4*r - s*q| ≤ 2`, with the tie
case `|4*r - s*q| = 2` resolved away from zero (`|4*r| > |s*q|`).  In
particular a product of exactly `2.5` (scale factor 1, index 2) rounds to
`3` and `-2.5` rounds to `-3`.  All float products involved are exactly
representable (quarter-integers of magnitude at most `14336 < 2^24`), so
no platform rounding mode can affect them; the round-half-away step itself
is done with `floor`/`ceil` arithmetic, not the current rounding mode. -/
theorem dequantContributionRounds :
    (∀ i : Fin 16, ∀ j : Fin 8,
      (4 * dequantContribution (sfDequant i.val) j.val -
        sfDequant i.val * kDequantQuarters.getD j.val 0).natAbs ≤ 2 ∧
      ((4 * dequantContribution (sfDequant i.val) j.val -
         sfDequant i.val * kDequantQuarters.getD j.val 0).natAbs = 2 →
        (sfDequant i.val * kDequantQuarters.getD j.val 0).natAbs <
          (4 * dequantContribution (sfDequant i.val) j.val).natAbs)) ∧
    dequantContribution 1 2 = 3 ∧ dequantContribution 1 3 = -3 := by
  decide

/-- Witness for C3 at an exact tie: scale factor 1 (index 0) with residual
index 2 gives the product 2.5 (`4*r - s*q = 12 - 10 = 2`), and the
tie is resolved away from zero. -/
theorem dequantContributionRoundsWitness :
    (sfDequant (0 : Fin 16).val * kDequantQuarters.getD (2 : Fin 8).val 0).natAbs <
      (4 * dequantContribution (sfDequant (0 : Fin 16).val) (2 : Fin 8).val).natAbs :=
  (dequantContributionRounds.1 0 2).2 (by decide)

/-- C5: the parsed sample rate is NOT `b0*65536 + b1*256 + b2`.  The code
zero-extends the three wire bytes into a 4-byte zero-initialised
`uint32_t` and then byte-swaps the whole 4-byte value with
`util::net_pack`, yielding `256 * (b0*65536 + b1*256 + b2)` — exactly the
zero-extend-then-swap-as-4-bytes corruption the specification warns about
(the code's own `TODO(robinlinden): u24, byteswap weirdness?` marks it).
For the failing input with sample-rate bytes `00 00 01` the parsed rate is
256, not 1. -/
theorem frameHeaderRateShifted (cb b0 b1 b2 c0 c1 d0 d1 : Byte) :
    (parseFrameHeader [cb, b0, b1, b2, c0, c1, d0, d1]).map (fun p => p.1.sample_rate) =
      some (256 * (b0.val * 65536 + b1.val * 256 + b2.val)) := by
  have hb0 := b0.isLt
  have hb1 := b1.isLt
  have hb2 := b2.isLt
  have hstep : parseFrameHeader [cb, b0, b1, b2, c0, c1, d0, d1] =
      some ({ channel_count := leBytes [cb],
              sample_rate := netPack32 (leBytes [b0, b1, b2]),
              sample_count := netPack16 (leBytes [c0, c1]),
              size := netPack16 (leBytes [d0, d1]) }, []) := rfl
  rw [hstep]
  simp only [Option.map_some', leBytes, netPack32, Nat.reducePow]
  congr 1
  have e1 : (b0.val + 256 * (b1.val + 256 * (b2.val + 256 * 0))) / 16777216 % 256 = 0 := by
    omega
  have e2 : (b0.val + 256 * (b1.val + 256 * (b2.val + 256 * 0))) / 65536 % 256 = b2.val := by
    omega
  have e3 : (b0.val + 256 * (b1.val + 256 * (b2.val + 256 * 0))) / 256 % 256 = b1.val := by
    omega
  have e4 : (b0.val + 256 * (b1.val + 256 * (b2.val + 256 * 0))) % 256 = b0.val := by
    omega
  rw [e1, e2, e3, e4]
  omega

/-- C6: the decoder consumes `channel_count * (sample_count / 20)` slices
(integer division), dropping a final partial block, not
`channel_count * ceil(sample_count / 20)` as the claim (and the format)
require.  Witnessed by a file whose single frame declares
`sample_count = 10` and one channel, followed by 8 slice bytes (171 each):
the code decodes `10 / 20 = 0` slice groups, produces no samples at all
and leaves all 8 slice bytes unread, while the claim requires
`ceil(10/20) = 1` slice (8 bytes) to be consumed. -/
theorem partialSliceBlockDropped :
    qoaParse ([113, 111, 97, 102, 0, 0, 0, 0, 1, 0, 0, 0, 0, 10, 0, 0] ++
        (List.replicate 16 0 ++ List.replicate 8 171)) =
      some ({ audio_frames := [], sample_rate := 0, nbr_channels := 1 },
        List.replicate 8 171) ∧
    (10 : Nat) / 20 = 0 ∧ (10 + 20 - 1) / 20 = 1 := by
  decide

/-- C7 (counterexample): the number of frames decoded differs from the
exact-arithmetic formula `round(total_sample_count / 256 / 20 + 0.5)` at
`total_sample_count = 20971519`: the code's single-precision evaluation
(qoa.cpp line 128) first rounds the count to the nearest `float`
(20971520, a tie broken to even), giving 4097 frames, while the exact
formula gives `round(4095.9998... + 0.5) = 4096`. -/
theorem frameCountFloatCounterexample :
    frameCount 20971519 = 4097 ∧ exactFrameCount 20971519 = 4096 ∧
    frameCount 20971519 ≠ exactFrameCount 20971519 := by
  decide

/-- C7 (amended): the number of frames decoded is
`round(total_sample_count / 256 / 20 + 0.5)` evaluated in the code's
single-precision floating-point arithmetic, which agrees with the exact
formula on small totals (it can differ once totals reach the 2^24 range);
in particular a container with `total_sample_count = 0` is decoded as
exactly 1 frame and `total_sample_count = 5120` as exactly 2 frames, in
agreement with the exact formula. -/
theorem frameCountBoundaryCases :
    frameCount 0 = 1 ∧ frameCount 5120 = 2 ∧
    exactFrameCount 0 = 1 ∧ exactFrameCount 5120 = 2 := by
  decide

/-- C2: for every 64-bit slice word, the scale-factor index is the top 4
bits `[63:60]` (the `uint8_t` cast in the code is the identity there), and
the twenty 3-bit residuals are extracted consecutively from high bit to
low bit: `residual[i] = (slice >> (57 - 3*i)) & 7`, with `residual[0]`
taken from bits `[59:57]` and `residual[19]` ending at bit 0.  The decoder
(`processResiduals`) consumes this list front to back, one output sample
per entry, so residual `i` corresponds to sample `i` in chronological
playback order. -/
theorem sliceExtraction (slice : Nat) (h : slice < 2 ^ 64) :
    sliceSfQuant slice = slice / 2 ^ 60 ∧ slice / 2 ^ 60 < 16 ∧
    sliceResiduals slice =
      [slice / 2 ^ 57 % 8, slice / 2 ^ 54 % 8, slice / 2 ^ 51 % 8,
       slice / 2 ^ 48 % 8, slice / 2 ^ 45 % 8, slice / 2 ^ 42 % 8,
       slice / 2 ^ 39 % 8, slice / 2 ^ 36 % 8, slice / 2 ^ 33 % 8,
       slice / 2 ^ 30 % 8, slice / 2 ^ 27 % 8, slice / 2 ^ 24 % 8,
       slice / 2 ^ 21 % 8, slice / 2 ^ 18 % 8, slice / 2 ^ 15 % 8,
       slice / 2 ^ 12 % 8, slice / 2 ^ 9 % 8, slice / 2 ^ 6 % 8,
       slice / 2 ^ 3 % 8, slice / 2 ^ 0 % 8] := by
  refine ⟨?_, by omega, ?_⟩
  · unfold sliceSfQuant
    rw [Nat.shiftRight_eq_div_pow]
    omega
  · have e : sliceResiduals slice =
        [slice >>> 57 % 8, slice >>> 54 % 8, slice >>> 51 % 8,
         slice >>> 48 % 8, slice >>> 45 % 8, slice >>> 42 % 8,
         slice >>> 39 % 8, slice >>> 36 % 8, slice >>> 33 % 8,
         slice >>> 30 % 8, slice >>> 27 % 8, slice >>> 24 % 8,
         slice >>> 21 % 8, slice >>> 18 % 8, slice >>> 15 % 8,
         slice >>> 12 % 8, slice >>> 9 % 8, slice >>> 6 % 8,
         slice >>> 3 % 8, slice >>> 0 % 8] := rfl
    rw [e]
    simp [Nat.shiftRight_eq_div_pow]

/-- Witness for C2 at the all-ones slice word. -/
theorem sliceExtractionWitness :
    sliceSfQuant 18446744073709551615 = 18446744073709551615 / 2 ^ 60 ∧
    (18446744073709551615 : Nat) / 2 ^ 60 < 16 ∧
    sliceResiduals 18446744073709551615 =
      [18446744073709551615 / 2 ^ 57 % 8, 18446744073709551615 / 2 ^ 54 % 8,
       18446744073709551615 / 2 ^ 51 % 8, 18446744073709551615 / 2 ^ 48 % 8,
       18446744073709551615 / 2 ^ 45 % 8, 18446744073709551615 / 2 ^ 42 % 8,
       18446744073709551615 / 2 ^ 39 % 8, 18446744073709551615 / 2 ^ 36 % 8,
       18446744073709551615 / 2 ^ 33 % 8, 18446744073709551615 / 2 ^ 30 % 8,
       18446744073709551615 / 2 ^ 27 % 8, 18446744073709551615 / 2 ^ 24 % 8,
       18446744073709551615 / 2 ^ 21 % 8, 18446744073709551615 / 2 ^ 18 % 8,
       18446744073709551615 / 2 ^ 15 % 8, 18446744073709551615 / 2 ^ 12 % 8,
       18446744073709551615 / 2 ^ 9 % 8, 18446744073709551615 / 2 ^ 6 % 8,
       18446744073709551615 / 2 ^ 3 % 8, 18446744073709551615 / 2 ^ 0 % 8] :=
  sliceExtraction 18446744073709551615 (by decide)
/-! ## Stream-extension lemmas

Each parser is deterministic and consumes only the bytes it reads: a
successful parse of `u` parses identically on `u ++ t`, with the extra
bytes left over.  These lemmas drive the truncation and channel-mismatch
claims. -/

theorem readBytes_append {n : Nat} {u r : ByteStream} {bs : List Byte}
    (h : readBytes n u = some (bs, r)) (t : ByteStream) :
    readBytes n (u ++ t) = some (bs, r ++ t) := by
  unfold readBytes at h ⊢
  by_cases hle : n ≤ u.length
  · rw [if_pos hle] at h
    simp only [Option.some.injEq, Prod.mk.injEq] at h
    obtain ⟨h1, h2⟩ := h
    rw [if_pos (by rw [List.length_append]; omega)]
    rw [List.take_append_of_le_length hle, List.drop_append_of_le_length hle,
      h1, h2]
  · rw [if_neg hle] at h
    exact absurd h (by simp)

theorem parseFrameHeader_append {u r : ByteStream} {hdr : FrameHeader}
    (h : parseFrameHeader u = some (hdr, r)) (t : ByteStream) :
    parseFrameHeader (u ++ t) = some (hdr, r ++ t) := by
  unfold parseFrameHeader at h ⊢
  cases h1 : readBytes 1 u with
  | none => rw [h1] at h; exact absurd h (by simp)
  | some p1 =>
    obtain ⟨b1, s1⟩ := p1
    rw [h1] at h
    rw [readBytes_append h1 t]
    dsimp only at h ⊢
    cases h2 : readBytes 3 s1 with
    | none => rw [h2] at h; exact absurd h (by simp)
    | some p2 =>
      obtain ⟨b2, s2⟩ := p2
      rw [h2] at h
      rw [readBytes_append h2 t]
      dsimp only at h ⊢
      cases h3 : readBytes 2 s2 with
      | none => rw [h3] at h; exact absurd h (by simp)
      | some p3 =>
        obtain ⟨b3, s3⟩ := p3
        rw [h3] at h
        rw [readBytes_append h3 t]
        dsimp only at h ⊢
        cases h4 : readBytes 2 s3 with
        | none => rw [h4] at h; exact absurd h (by simp)
        | some p4 =>
          obtain ⟨b4, s4⟩ := p4
          rw [h4] at h
          rw [readBytes_append h4 t]
          dsimp only at h ⊢
          simp only [Option.some.injEq, Prod.mk.injEq] at h ⊢
          exact ⟨h.1, by rw [h.2]⟩

theorem parseLms_append {u r : ByteStream} {l : Lms}
    (h : parseLms u = some (l, r)) (t : ByteStream) :
    parseLms (u ++ t) = some (l, r ++ t) := by
  unfold parseLms at h ⊢
  cases h1 : readBytes 8 u with
  | none => rw [h1] at h; exact absurd h (by simp)
  | some p1 =>
    obtain ⟨hb, s1⟩ := p1
    rw [h1] at h
    rw [readBytes_append h1 t]
    dsimp only at h ⊢
    cases h2 : readBytes 8 s1 with
    | none => rw [h2] at h; exact absurd h (by simp)
    | some p2 =>
      obtain ⟨wb, s2⟩ := p2
      rw [h2] at h
      rw [readBytes_append h2 t]
      dsimp only at h ⊢
      simp only [Option.some.injEq, Prod.mk.injEq] at h ⊢
      exact ⟨h.1, by rw [h.2]⟩

theorem parseLmsList_append : ∀ {n : Nat} {u r : ByteStream} {ls : List Lms},
    parseLmsList n u = some (ls, r) → ∀ t : ByteStream,
    parseLmsList n (u ++ t) = some (ls, r ++ t) := by
  intro n
  induction n with
  | zero =>
    intro u r ls h t
    unfold parseLmsList at h ⊢
    simp only [Option.some.injEq, Prod.mk.injEq] at h ⊢
    exact ⟨h.1, by rw [h.2]⟩
  | succ m ih =>
    intro u r ls h t
    unfold parseLmsList at h ⊢
    cases h1 : parseLms u with
    | none => rw [h1] at h; exact absurd h (by simp)
    | some p1 =>
      obtain ⟨l, s1⟩ := p1
      rw [h1] at h
      rw [parseLms_append h1 t]
      dsimp only at h ⊢
      cases h2 : parseLmsList m s1 with
      | none => rw [h2] at h; exact absurd h (by simp)
      | some p2 =>
        obtain ⟨ls2, s2⟩ := p2
        rw [h2] at h
        rw [ih h2 t]
        dsimp only at h ⊢
        simp only [Option.some.injEq, Prod.mk.injEq] at h ⊢
        exact ⟨h.1, by rw [h.2]⟩

theorem decodeChans_append : ∀ {remaining ch : Nat} {lms : List Lms}
    {out : Output} {u r : ByteStream} {l2 : List Lms} {o2 : Output},
    decodeChans remaining ch lms out u = some (l2, o2, r) →
    ∀ t : ByteStream,
    decodeChans remaining ch lms out (u ++ t) = some (l2, o2, r ++ t) := by
  intro remaining
  induction remaining with
  | zero =>
    intro ch lms out u r l2 o2 h t
    unfold decodeChans at h ⊢
    simp only [Option.some.injEq, Prod.mk.injEq] at h ⊢
    exact ⟨h.1, h.2.1, by rw [h.2.2]⟩
  | succ m ih =>
    intro ch lms out u r l2 o2 h t
    unfold decodeChans at h ⊢
    cases h1 : readBytes 8 u with
    | none => rw [h1] at h; exact absurd h (by simp)
    | some p1 =>
      obtain ⟨sb, s1⟩ := p1
      rw [h1] at h
      rw [readBytes_append h1 t]
      dsimp only at h ⊢
      exact ih h t

theorem decodeGroups_append : ∀ {g cc : Nat} {lms : List Lms}
    {out : Output} {u r : ByteStream} {l2 : List Lms} {o2 : Output},
    decodeGroups g cc lms out u = some (l2, o2, r) →
    ∀ t : ByteStream,
    decodeGroups g cc lms out (u ++ t) = some (l2, o2, r ++ t) := by
  intro g
  induction g with
  | zero =>
    intro cc lms out u r l2 o2 h t
    unfold decodeGroups at h ⊢
    simp only [Option.some.injEq, Prod.mk.injEq] at h ⊢
    exact ⟨h.1, h.2.1, by rw [h.2.2]⟩
  | succ m ih =>
    intro cc lms out u r l2 o2 h t
    unfold decodeGroups at h ⊢
    cases h1 : decodeChans cc 0 lms out u with
    | none => rw [h1] at h; exact absurd h (by simp)
    | some p1 =>
      obtain ⟨lmsA, outA, sA⟩ := p1
      rw [h1] at h
      rw [decodeChans_append h1 t]
      dsimp only at h ⊢
      exact ih h t

theorem decodeFrames_append : ∀ {k : Nat} {cc : Option Nat}
    {last : FrameHeader} {out : Output} {u r : ByteStream}
    {resF : FrameHeader} {resC : Option Nat} {resO : Output},
    decodeFrames k cc last out u = some (resF, resC, resO, r) →
    ∀ t : ByteStream,
    decodeFrames k cc last out (u ++ t) = some (resF, resC, resO, r ++ t) := by
  intro k
  induction k with
  | zero =>
    intro cc last out u r resF resC resO h t
    unfold decodeFrames at h ⊢
    simp only [Option.some.injEq, Prod.mk.injEq] at h ⊢
    exact ⟨h.1, h.2.1, h.2.2.1, by rw [h.2.2.2]⟩
  | succ m ih =>
    intro cc last out u r resF resC resO h t
    unfold decodeFrames at h ⊢
    cases h1 : parseFrameHeader u with
    | none => rw [h1] at h; exact absurd h (by simp)
    | some p1 =>
      obtain ⟨hdr, s1⟩ := p1
      rw [h1] at h
      rw [parseFrameHeader_append h1 t]
      dsimp only at h ⊢
      by_cases hcc : cc.getD hdr.channel_count ≠ hdr.channel_count
      · rw [if_pos hcc] at h
        exact absurd h (by simp)
      · rw [if_neg hcc] at h
        rw [if_neg hcc]
        cases h2 : parseLmsList hdr.channel_count s1 with
        | none => rw [h2] at h; exact absurd h (by simp)
        | some p2 =>
          obtain ⟨lms, s2⟩ := p2
          rw [h2] at h
          rw [parseLmsList_append h2 t]
          dsimp only at h ⊢
          cases h3 : decodeGroups (hdr.sample_count / 20) hdr.channel_count lms out s2 with
          | none => rw [h3] at h; exact absurd h (by simp)
          | some p3 =>
            obtain ⟨lmsB, outB, sB⟩ := p3
            rw [h3] at h
            rw [decodeGroups_append h3 t]
            dsimp only at h ⊢
            exact ih h t

theorem qoaParse_append {u r : ByteStream} {q : Qoa}
    (h : qoaParse u = some (q, r)) (t : ByteStream) :
    qoaParse (u ++ t) = some (q, r ++ t) := by
  unfold qoaParse at h ⊢
  cases h1 : readBytes 4 u with
  | none => rw [h1] at h; exact absurd h (by simp)
  | some p1 =>
    obtain ⟨magic, s1⟩ := p1
    rw [h1] at h
    rw [readBytes_append h1 t]
    dsimp only at h ⊢
    by_cases hm : magic ≠ [113, 111, 97, 102]
    · rw [if_pos hm] at h
      exact absurd h (by simp)
    · rw [if_neg hm] at h
      rw [if_neg hm]
      cases h2 : readBytes 4 s1 with
      | none => rw [h2] at h; exact absurd h (by simp)
      | some p2 =>
        obtain ⟨scb, s2⟩ := p2
        rw [h2] at h
        rw [readBytes_append h2 t]
        dsimp only at h ⊢
        cases h3 : decodeFrames (frameCount (netPack32 (leBytes scb))) none default
            ⟨[], [], false⟩ s2 with
        | none => rw [h3] at h; exact absurd h (by simp)
        | some p3 =>
          obtain ⟨lastH, ccH, outH, sH⟩ := p3
          rw [h3] at h
          rw [decodeFrames_append h3 t]
          dsimp only at h ⊢
          simp only [Option.some.injEq, Prod.mk.injEq] at h ⊢
          exact ⟨h.1, by rw [h.2]⟩

/-- C8: in the frame loop, once a channel count `c` has been established
(by the first frame), a later frame header declaring a different channel
count makes decoding fail, and it fails immediately after parsing that
8-byte header: for any continuation `t` of the stream beyond the header
bytes `u`, the loop returns `none` without inspecting `t`, i.e. before any
predictor-state or slice bytes are consumed for that frame. -/
theorem channelMismatchFailsFast (k c : Nat) (last : FrameHeader)
    (out : Output) (u : ByteStream) (hdr : FrameHeader)
    (hu : parseFrameHeader u = some (hdr, []))
    (hne : hdr.channel_count ≠ c) (t : ByteStream) :
    decodeFrames (k + 1) (some c) last out (u ++ t) = none := by
  unfold decodeFrames
  rw [parseFrameHeader_append hu t]
  dsimp only
  rw [if_pos (by simpa [Option.getD] using fun hx => hne hx.symm)]

/-- Witness for C8: a second-frame header declaring 5 channels against an
established channel count of 1 aborts the decode with the slice bytes
`[9, 9]` left untouched. -/
theorem channelMismatchFailsFastWitness :
    decodeFrames 1 (some 1) ⟨0, 0, 0, 0⟩ ⟨[], [], false⟩
      ([5, 0, 0, 0, 0, 0, 0, 0] ++ [9, 9]) = none :=
  channelMismatchFailsFast 0 1 ⟨0, 0, 0, 0⟩ ⟨[], [], false⟩
    [5, 0, 0, 0, 0, 0, 0, 0] ⟨5, 0, 0, 0⟩ (by decide) (by decide) [9, 9]

/-- C9: a failed parse yields no samples at all.  The result type is
`Option`: every failure path returns `none`, which carries no decoded
output.  Concretely: (a) if the 4 magic bytes read at offset 0 differ from
`"qoaf"` the whole parse returns `none`; (b) truncation: if a stream `s`
parses successfully consuming every byte (a conformant file), then
removing its final byte makes the parse return `none` — not some prefix of
the output. -/
theorem qoaParseAllOrNothing :
    (∀ (s : ByteStream) (m : List Byte) (rest : ByteStream),
      readBytes 4 s = some (m, rest) → m ≠ [113, 111, 97, 102] →
      qoaParse s = none) ∧
    (∀ (s : ByteStream) (q : Qoa), qoaParse s = some (q, []) → s ≠ [] →
      qoaParse s.dropLast = none) := by
  constructor
  · intro s m rest hr hm
    unfold qoaParse
    rw [hr]
    dsimp only
    rw [if_pos hm]
  · intro s q h hne
    cases hd : qoaParse s.dropLast with
    | none => rfl
    | some pr =>
      obtain ⟨q2, r2⟩ := pr
      have h2 := qoaParse_append hd [s.getLast hne]
      rw [List.dropLast_append_getLast hne] at h2
      rw [h] at h2
      simp only [Option.some.injEq, Prod.mk.injEq] at h2
      exact absurd h2.2.symm (by simp)

/-- Witness for C9: a wrong magic tag yields `none`, and dropping the last
byte of a 16-byte conformant file (magic, zero sample count, one frame
header with zero channels) yields `none`. -/
theorem qoaParseAllOrNothingWitness :
    qoaParse [0, 0, 0, 0] = none ∧
    qoaParse ([113, 111, 97, 102, 0, 0, 0, 0, 0, 0, 0, 0,
      0, 0, 0, 0] : ByteStream).dropLast = none :=
  ⟨qoaParseAllOrNothing.1 [0, 0, 0, 0] [0, 0, 0, 0] [] (by decide) (by decide),
   qoaParseAllOrNothing.2 [113, 111, 97, 102, 0, 0, 0, 0, 0, 0, 0, 0, 0, 0, 0, 0]
     ⟨[], 0, 0⟩ (by decide) (by decide)⟩

/-! ## Output-store bounds lemmas -/

theorem pushSample_oob_ge {ch : Nat} (h : 2 ≤ ch) (x : Int) (out : Output) :
    pushSample ch x out = { out with oob := true } := by
  unfold pushSample
  rw [if_neg (by omega), if_neg (by omega)]

theorem pushSample_oob_lt {ch : Nat} (h : ch < 2) (x : Int) (out : Output) :
    (pushSample ch x out).oob = out.oob := by
  unfold pushSample
  by_cases h0 : ch = 0
  · rw [if_pos h0]
  · rw [if_neg h0, if_pos (by omega)]

theorem pushSample_oob_mono {out : Output} (h : out.oob = true)
    (ch : Nat) (x : Int) : (pushSample ch x out).oob = true := by
  unfold pushSample
  by_cases h0 : ch = 0
  · rw [if_pos h0]; exact h
  · by_cases h1 : ch = 1
    · rw [if_neg h0, if_pos h1]; exact h
    · rw [if_neg h0, if_neg h1]

theorem processResiduals_oob_lt : ∀ (l : List Nat) (sf : Int) {ch : Nat}
    (st : Lms) (out : Output), ch < 2 →
    (processResiduals l sf ch st out).2.oob = out.oob := by
  intro l
  induction l with
  | nil => intro sf ch st out h; rfl
  | cons res rest ih =>
    intro sf ch st out h
    unfold processResiduals
    dsimp only
    rw [ih _ _ _ h, pushSample_oob_lt h]

theorem processResiduals_oob_mono : ∀ (l : List Nat) (sf : Int) (ch : Nat)
    (st : Lms) {out : Output}, out.oob = true →
    (processResiduals l sf ch st out).2.oob = true := by
  intro l
  induction l with
  | nil => intro sf ch st out h; exact h
  | cons res rest ih =>
    intro sf ch st out h
    unfold processResiduals
    dsimp only
    exact ih _ _ _ (pushSample_oob_mono h _ _)

theorem processResiduals_oob_set {l : List Nat} (sf : Int) {ch : Nat}
    (st : Lms) (out : Output) (hch : 2 ≤ ch) (hl : l ≠ []) :
    (processResiduals l sf ch st out).2.oob = true := by
  cases l with
  | nil => exact absurd rfl hl
  | cons res rest =>
    unfold processResiduals
    dsimp only
    apply processResiduals_oob_mono
    rw [pushSample_oob_ge hch]

theorem sliceResiduals_ne_nil (slice : Nat) : sliceResiduals slice ≠ [] := by
  have e : sliceResiduals slice =
      (slice >>> 57 % 8) :: residualsFrom slice 7 19 := rfl
  rw [e]
  exact List.cons_ne_nil _ _

theorem decodeChans_oob_le : ∀ {remaining ch : Nat} {lms l2 : List Lms}
    {out o2 : Output} {u r : ByteStream}, ch + remaining ≤ 2 →
    decodeChans remaining ch lms out u = some (l2, o2, r) →
    o2.oob = out.oob := by
  intro remaining
  induction remaining with
  | zero =>
    intro ch lms l2 out o2 u r hle h
    unfold decodeChans at h
    simp only [Option.some.injEq, Prod.mk.injEq] at h
    rw [← h.2.1]
  | succ m ih =>
    intro ch lms l2 out o2 u r hle h
    unfold decodeChans at h
    cases h1 : readBytes 8 u with
    | none => rw [h1] at h; exact absurd h (by simp)
    | some p1 =>
      obtain ⟨sb, s1⟩ := p1
      rw [h1] at h
      dsimp only at h
      rw [ih (by omega) h, processResiduals_oob_lt _ _ _ _ (by omega)]

theorem decodeChans_oob_mono : ∀ {remaining ch : Nat} {lms l2 : List Lms}
    {out o2 : Output} {u r : ByteStream}, out.oob = true →
    decodeChans remaining ch lms out u = some (l2, o2, r) →
    o2.oob = true := by
  intro remaining
  induction remaining with
  | zero =>
    intro ch lms l2 out o2 u r ho h
    unfold decodeChans at h
    simp only [Option.some.injEq, Prod.mk.injEq] at h
    rw [← h.2.1]; exact ho
  | succ m ih =>
    intro ch lms l2 out o2 u r ho h
    unfold decodeChans at h
    cases h1 : readBytes 8 u with
    | none => rw [h1] at h; exact absurd h (by simp)
    | some p1 =>
      obtain ⟨sb, s1⟩ := p1
      rw [h1] at h
      dsimp only at h
      exact ih (processResiduals_oob_mono _ _ _ _ ho) h

theorem decodeChans_oob_hit : ∀ {remaining ch : Nat} {lms l2 : List Lms}
    {out o2 : Output} {u r : ByteStream}, ch ≤ 2 → 2 < ch + remaining →
    decodeChans remaining ch lms out u = some (l2, o2, r) →
    o2.oob = true := by
  intro remaining
  induction remaining with
  | zero => intro ch lms l2 out o2 u r h1 h2 h; omega
  | succ m ih =>
    intro ch lms l2 out o2 u r hle hgt h
    unfold decodeChans at h
    cases h1 : readBytes 8 u with
    | none => rw [h1] at h; exact absurd h (by simp)
    | some p1 =>
      obtain ⟨sb, s1⟩ := p1
      rw [h1] at h
      dsimp only at h
      by_cases hch : ch = 2
      · subst hch
        exact decodeChans_oob_mono
          (processResiduals_oob_set _ _ _ (by omega) (sliceResiduals_ne_nil _)) h
      · exact ih (by omega) (by omega) h

theorem decodeGroups_oob_le : ∀ {g cc : Nat} {lms l2 : List Lms}
    {out o2 : Output} {u r : ByteStream}, cc ≤ 2 →
    decodeGroups g cc lms out u = some (l2, o2, r) →
    o2.oob = out.oob := by
  intro g
  induction g with
  | zero =>
    intro cc lms l2 out o2 u r hle h
    unfold decodeGroups at h
    simp only [Option.some.injEq, Prod.mk.injEq] at h
    rw [← h.2.1]
  | succ m ih =>
    intro cc lms l2 out o2 u r hle h
    unfold decodeGroups at h
    cases h1 : decodeChans cc 0 lms out u with
    | none => rw [h1] at h; exact absurd h (by simp)
    | some p1 =>
      obtain ⟨lmsA, outA, sA⟩ := p1
      rw [h1] at h
      dsimp only at h
      rw [ih hle h, decodeChans_oob_le (by omega) h1]

theorem decodeGroups_oob_mono : ∀ {g cc : Nat} {lms l2 : List Lms}
    {out o2 : Output} {u r : ByteStream}, out.oob = true →
    decodeGroups g cc lms out u = some (l2, o2, r) →
    o2.oob = true := by
  intro g
  induction g with
  | zero =>
    intro cc lms l2 out o2 u r ho h
    unfold decodeGroups at h
    simp only [Option.some.injEq, Prod.mk.injEq] at h
    rw [← h.2.1]; exact ho
  | succ m ih =>
    intro cc lms l2 out o2 u r ho h
    unfold decodeGroups at h
    cases h1 : decodeChans cc 0 lms out u with
    | none => rw [h1] at h; exact absurd h (by simp)
    | some p1 =>
      obtain ⟨lmsA, outA, sA⟩ := p1
      rw [h1] at h
      dsimp only at h
      exact ih (decodeChans_oob_mono ho h1) h

theorem flatMapSingleton (g : Nat → Int) (n : Nat) :
    (List.range n).flatMap (fun i => [g i]) = (List.range n).map g := by
  induction n with
  | zero => rfl
  | succ m ih =>
    rw [List.range_succ, List.flatMap_append, List.map_append, ih]
    rfl

theorem mapGetDRange (l : List Int) :
    (List.range l.length).map (fun i => l.getD i 0) = l := by
  apply List.ext_get
  · simp
  · intro i h1 h2
    simp [List.getD_eq_getElem, List.getElem?_eq_getElem, h2]

/-- C10: the per-channel output store is a fixed 2-element array indexed
by the unvalidated channel number from the frame header.
(i) A store for any channel `>= 2` indexes past the end of that array
(recorded by the model's `oob` marker; in C++ it is an out-of-bounds
write).  (ii) For channel counts `<= 2` every store is in bounds: a whole
slice-group decode leaves the `oob` marker unchanged, so safe decoding is
guaranteed.  (iii) For a declared channel count `>= 3`, decoding any slice
group stores samples for channel 2 and thus goes out of bounds.  (iv) The
final interleaving emits at most the first two channels: when the channel
count is not 2 it emits exactly the channel-0 sequence (and for count 2 it
reads only channels 0 and 1, the only ones that exist). -/
theorem outputStoreBounds :
    (∀ (out : Output) (x : Int) (ch : Nat), 2 ≤ ch →
      pushSample ch x out = { out with oob := true }) ∧
    (∀ (g cc : Nat) (lms l2 : List Lms) (out o2 : Output) (u r : ByteStream),
      cc ≤ 2 → decodeGroups g cc lms out u = some (l2, o2, r) →
      o2.oob = out.oob) ∧
    (∀ (g cc : Nat) (lms l2 : List Lms) (out o2 : Output) (u r : ByteStream),
      3 ≤ cc → 1 ≤ g → decodeGroups g cc lms out u = some (l2, o2, r) →
      o2.oob = true) ∧
    (∀ (cc : Nat) (out : Output), cc ≠ 2 → interleave cc out = out.c0) := by
  refine ⟨?_, ?_, ?_, ?_⟩
  · intro out x ch hch
    exact pushSample_oob_ge hch x out
  · intro g cc lms l2 out o2 u r hle h
    exact decodeGroups_oob_le hle h
  · intro g cc lms l2 out o2 u r hcc hg h
    cases g with
    | zero => omega
    | succ m =>
      unfold decodeGroups at h
      cases h1 : decodeChans cc 0 lms out u with
      | none => rw [h1] at h; exact absurd h (by simp)
      | some p1 =>
        obtain ⟨lmsA, outA, sA⟩ := p1
        rw [h1] at h
        dsimp only at h
        exact decodeGroups_oob_mono (decodeChans_oob_hit (by omega) (by omega) h1) h
  · intro cc out hcc
    unfold interleave
    simp only [if_neg hcc]
    rw [flatMapSingleton (fun i => out.c0.getD i 0) out.c0.length,
      mapGetDRange]

set_option maxRecDepth 100000 in
/-- Witness for C10: a store at channel 2 marks the out-of-bounds event;
decoding one slice group for a 3-channel frame (24 zero slice bytes) goes
out of bounds; interleaving with channel count 3 emits only channel 0. -/
theorem outputStoreBoundsWitness :
    pushSample 2 7 ⟨[1], [2], false⟩ = ⟨[1], [2], true⟩ ∧
    ((decodeGroups 1 3 [default, default, default] ⟨[], [], false⟩
        (List.replicate 24 0)).getD ([], ⟨[], [], true⟩, [])).2.1.oob = true ∧
    interleave 3 ⟨[1, 2], [5, 6], false⟩ = [1, 2] :=
  ⟨outputStoreBounds.1 ⟨[1], [2], false⟩ 7 2 (by decide),
   outputStoreBounds.2.2.1 1 3 [default, default, default]
     ((decodeGroups 1 3 [default, default, default] ⟨[], [], false⟩
        (List.replicate 24 0)).getD ([], ⟨[], [], true⟩, [])).1
     ⟨[], [], false⟩
     ((decodeGroups 1 3 [default, default, default] ⟨[], [], false⟩
        (List.replicate 24 0)).getD ([], ⟨[], [], true⟩, [])).2.1
     (List.replicate 24 0)
     ((decodeGroups 1 3 [default, default, default] ⟨[], [], false⟩
        (List.replicate 24 0)).getD ([], ⟨[], [], true⟩, [])).2.2
     (by decide) (by decide) (by decide),
   outputStoreBounds.2.2.2 3 ⟨[1, 2], [5, 6], false⟩ (by decide)⟩
